import Mathlib

set_option maxHeartbeats 4000000
set_option maxRecDepth 8000

namespace ChiSq

/-- Integer factorial, translated from the shared helper of src/Bonus/chi_sq.py
and src/Chapter16/ch16_ex3.py (the two definitions are textually identical up
to an int(k) coercion): if k < 2 the value 1 is returned, otherwise the product
of range(2, k+1).  Note there is no negative-argument check in the source. -/
def fact (k : ℤ) : ℤ :=
  if k < 2 then 1 else (List.range' 2 (k - 1).toNat).foldl (fun a i => a * (i : ℤ)) 1

/-- Rational approximation of sqrt(pi) used by the rational variant
(ch16_ex3.py, module constant sqrt_pi). -/
def sqrt_pi : ℚ := 677622787 / 382307718

/-- Exact value of the IEEE-754 binary64 literal 1E-8 used as the convergence
threshold.  Python compares Fraction values against this float exactly, so the
effective threshold of the rational variant is this dyadic rational. -/
def epsQ : ℚ := 3022314549036573 / 2 ^ 78

/-- Exponentiation of a Fraction by a Fraction, as used by the rational variant
at z ** (s+k).  Python computes this exactly when the exponent has denominator
1; for any other exponent Fraction.__pow__ falls back to IEEE floating point,
which may even raise OverflowError for large bases instead of returning.  This
exact embedding does not model that fallback: the junk value 0 stands in for
it, and every theorem about the fallback-free path carries a denominator-1
guard (integer s, i.e. even degrees of freedom). -/
def qpow (z e : ℚ) : ℚ := if e.den = 1 then z ^ e.num else 0

/-- The j-th series term of the incomplete gamma function, translated from the
terms generator of gamma in ch16_ex3.py:
Fraction((-1)**k, fact(k)) * (Fraction(z**(s+k)) / (s+k)). -/
def termQ (s z : ℚ) (j : ℕ) : ℚ :=
  ((-1 : ℚ) ^ j / (fact j : ℚ)) * (qpow z (s + j) / (s + j))

/-- take_until from the source: consume elements of the list until the
predicate first holds, returning the consumed prefix (the element satisfying
the predicate is excluded). -/
def takeUntil {α : Type} (p : α → Prop) [DecidablePred p] : List α → List α
  | [] => []
  | t :: ts => if p t then [] else t :: takeUntil p ts

/-- The list of terms actually kept by gamma in ch16_ex3.py: the terms
generator yields at most 100 terms, and take_until stops at the first term of
magnitude below the threshold. -/
def keptQ (s z : ℚ) : List ℚ :=
  takeUntil (fun t => |t| < epsQ) ((List.range 100).map (termQ s z))

/-- The rational-variant incomplete gamma evaluator together with its warning
flag: the source sums the take_until prefix, and warnings.warn("More than 100
terms") fires exactly when the consumer exhausts all 100 generated terms
without meeting the threshold (i.e. the kept prefix has length 100). -/
def gammaW (s z : ℚ) : ℚ × Bool :=
  ((keptQ s z).sum, (keptQ s z).length == 100)

/-- The value returned by the rational-variant gamma (ch16_ex3.py). -/
def gamma (s z : ℚ) : ℚ := (gammaW s z).1

/-- The rational-variant Gamma_Half of ch16_ex3.py.  Dispatch is structural on
the exact representation: integers (denominator 1, including Python ints) give
fact(k-1); exact half-integers (denominator 2) give the closed form
fact(2n)/(4**n * fact(n)) * sqrt_pi with n = k - 1/2; every other argument
raises ValueError, modelled as none. -/
def Gamma_Half (k : ℚ) : Option ℚ :=
  if k.den = 1 then some ((fact (k.num - 1) : ℤ) : ℚ)
  else if k.den = 2 then
    some (((fact (2 * (k - 1/2).num) : ℤ) : ℚ) /
      ((4 : ℚ) ^ ((k - 1/2).num) * ((fact ((k - 1/2).num) : ℤ) : ℚ)) * sqrt_pi)
  else none

/-- The rational-variant cdf of ch16_ex3.py:
1 - gamma(Fraction(k,2), Fraction(x/2)) / Gamma_Half(Fraction(k,2)).
A ValueError escaping from Gamma_Half propagates (none); otherwise the
combinator arithmetic is exact rational arithmetic. -/
def cdf (x : ℚ) (k : ℤ) : Option ℚ :=
  (Gamma_Half ((k : ℚ) / 2)).map (fun G => 1 - gamma ((k : ℚ) / 2) (x / 2) / G)

/-- Unnormalized integer fraction pairs.  Python's Fraction stores pairs in
lowest terms; cancelling a common factor never changes the value, the ordering
or any comparison, so this computational mirror of the Fraction arithmetic
postpones normalization.  Every statement about it goes through `val`, its
exact rational value, and the bridge lemmas below identify the mirror with the
ℚ-level embedding. -/
structure Frac where
  num : ℤ
  den : ℤ
deriving DecidableEq

/-- Rational value denoted by a fraction pair. -/
def Frac.val (f : Frac) : ℚ := (f.num : ℚ) / (f.den : ℚ)

/-- Mirror of Fraction addition (without normalization). -/
def addF (f g : Frac) : Frac := ⟨f.num * g.den + g.num * f.den, f.den * g.den⟩

/-- Mirror of Python sum() over a list of fractions. -/
def sumF (l : List Frac) : Frac := l.foldr addF ⟨0, 1⟩

/-- Mirror of the j-th gamma series term for integer s = m:
((-1)^j / j!) * (z^(m+j) / (m+j)) computed as one fraction pair. -/
def termF (m : ℤ) (zp : Frac) (j : ℕ) : Frac :=
  ⟨(-1) ^ j * zp.num ^ (m + (j : ℤ)).toNat,
    fact j * (zp.den ^ (m + (j : ℤ)).toNat * (m + (j : ℤ)))⟩

/-- Mirror of the convergence test abs(t) < 1E-8: for pairs with positive
denominator this cross-multiplied integer comparison is exactly
|val t| < epsQ. -/
def lowF (t : Frac) : Prop := |t.num| * 2 ^ 78 < 3022314549036573 * t.den

instance : DecidablePred lowF := fun t =>
  inferInstanceAs (Decidable (|t.num| * 2 ^ 78 < 3022314549036573 * t.den))

/-- Mirror of the kept prefix of the series (integer s = m). -/
def keptF (m : ℤ) (zp : Frac) : List Frac :=
  takeUntil lowF ((List.range 100).map (termF m zp))

/-- Mirror of the rational-variant gamma for integer s = m. -/
def gammaF (m : ℤ) (zp : Frac) : Frac := sumF (keptF m zp)

/-- Ideal-real convergence threshold of the floating-point variant
(chi_sq.py, the literal 1E-8 read at real-number precision). -/
noncomputable def epsR : ℝ := 1 / 100000000

/-- Ideal-real half-integer detection tolerance of the floating-point variant
(chi_sq.py, the literal 1E-6 read at real-number precision). -/
noncomputable def epsR' : ℝ := 1 / 1000000

/-- The j-th series term of the floating-point gamma of chi_sq.py, read in
ideal real arithmetic: ((-1)**k / fact(k)) * (z**(s+k) / (s+k)), where ** on
nonnegative reals is the real power function. -/
noncomputable def termR (s z : ℝ) (j : ℕ) : ℝ :=
  ((-1 : ℝ) ^ j / ((fact j : ℤ) : ℝ)) * (z ^ (s + (j : ℝ)) / (s + (j : ℝ)))

/-- The floating-point variant gamma of chi_sq.py in ideal real arithmetic:
terms are generated for k in range(1000) and take_until keeps those before the
first term of magnitude below 1E-8.  Unlike the rational variant there is no
warning of any kind when the 1000-term ceiling is exhausted. -/
noncomputable def gammaR (s z : ℝ) : ℝ :=
  (@takeUntil ℝ (fun t => |t| < epsR) (fun t => Classical.propDecidable _)
    ((List.range 1000).map (termR s z))).sum

/-- The Nemes approximation Gamma2 of chi_sq.py in ideal real arithmetic:
sqrt(2*pi/z) * ((z + 1/(12*z - 1/(10*z))) / e) ** z. -/
noncomputable def Gamma2R (z : ℝ) : ℝ :=
  Real.sqrt (2 * Real.pi / z) *
    ((z + 1 / (12 * z - 1 / (10 * z))) / Real.exp 1) ^ z

/-- Python int() truncation toward zero on reals. -/
noncomputable def rtrunc (r : ℝ) : ℤ :=
  @ite _ (0 ≤ r) (Classical.propDecidable _) ⌊r⌋ (-⌊-r⌋)

/-- The floating-point variant Gamma_Half of chi_sq.py in ideal real
arithmetic: if abs(k - int(k) - .5) < 1E-6 the closed form
fact(2*n)/(4**n*fact(n))*sqrt(pi) with n = int(k - .5), otherwise Gamma2(k). -/
noncomputable def Gamma_HalfR (k : ℝ) : ℝ :=
  @ite _ (|k - (rtrunc k : ℝ) - 1 / 2| < epsR') (Classical.propDecidable _)
    (((fact (2 * rtrunc (k - 1 / 2)) : ℤ) : ℝ) /
      ((4 : ℝ) ^ (rtrunc (k - 1 / 2)) * ((fact (rtrunc (k - 1 / 2)) : ℤ) : ℝ)) *
      Real.sqrt Real.pi)
    (Gamma2R k)

/-- The floating-point variant cdf of chi_sq.py in ideal real arithmetic:
1 - gamma(k/2, x/2) / Gamma_Half(k/2). -/
noncomputable def cdfR (x : ℝ) (k : ℤ) : ℝ :=
  1 - gammaR ((k : ℝ) / 2) (x / 2) / Gamma_HalfR ((k : ℝ) / 2)

/-! Helper lemmas about take_until. -/

theorem takeUntil_length_le {α : Type} (p : α → Prop) [DecidablePred p]
    (l : List α) : (takeUntil p l).length ≤ l.length := by
  induction l with
  | nil => simp [takeUntil]
  | cons t ts ih =>
    by_cases h : p t <;> simp [takeUntil, h] <;> omega

theorem takeUntil_eq_self {α : Type} (p : α → Prop) [DecidablePred p]
    (l : List α) (h : ∀ x ∈ l, ¬ p x) : takeUntil p l = l := by
  induction l with
  | nil => rfl
  | cons t ts ih =>
    rw [takeUntil, if_neg (h t (by simp)), ih (fun x hx => h x (by simp [hx]))]

theorem takeUntil_full_no_sat {α : Type} (p : α → Prop) [DecidablePred p]
    (l : List α) (h : (takeUntil p l).length = l.length) : ∀ x ∈ l, ¬ p x := by
  induction l with
  | nil => simp
  | cons t ts ih =>
    by_cases hpt : p t
    · simp [takeUntil, hpt] at h
    · intro x hx
      rcases List.mem_cons.mp hx with rfl | hx'
      · exact hpt
      · simp only [takeUntil, if_neg hpt, List.length_cons, Nat.succ.injEq] at h
        exact ih h x hx'

theorem takeUntil_mem {α : Type} (p : α → Prop) [DecidablePred p]
    (l : List α) (x : α) (hx : x ∈ takeUntil p l) : x ∈ l := by
  induction l with
  | nil => simpa [takeUntil] using hx
  | cons t ts ih =>
    by_cases h : p t
    · simp [takeUntil, h] at hx
    · rw [takeUntil, if_neg h] at hx
      rcases List.mem_cons.mp hx with rfl | hx'
      · simp
      · simp [ih hx']

theorem takeUntil_stop {α : Type} (p : α → Prop) [DecidablePred p]
    (f : ℕ → α) :
    ∀ (m a n : ℕ), m < n → (∀ i, i < m → ¬ p (f (a + i))) → p (f (a + m)) →
      takeUntil p ((List.range' a n).map f) = (List.range' a m).map f := by
  intro m
  induction m with
  | zero =>
    intro a n hmn _ hlow
    cases n with
    | zero => omega
    | succ n' =>
      rw [List.range'_succ, List.map_cons, takeUntil,
        if_pos (by simpa using hlow)]
      rfl
  | succ m ih =>
    intro a n hmn hhigh hlow
    cases n with
    | zero => omega
    | succ n' =>
      rw [List.range'_succ, List.map_cons, takeUntil,
        if_neg (by simpa using hhigh 0 (by omega)),
        ih (a + 1) n' (by omega)
          (fun i hi => by
            have := hhigh (i + 1) (by omega)
            simpa [Nat.add_assoc, Nat.add_comm 1 i] using this)
          (by
            have := hlow
            simpa [Nat.add_assoc, Nat.add_comm 1 m] using this),
        List.range'_succ, List.map_cons]

theorem sum_map_range_q (f : ℕ → ℚ) (n : ℕ) :
    ((List.range n).map f).sum = ∑ j ∈ Finset.range n, f j := by
  induction n with
  | zero => simp
  | succ n ih =>
    rw [List.range_succ, List.map_append, List.sum_append,
      Finset.sum_range_succ, ih]
    simp

theorem takeUntil_map_val (pQ : ℚ → Prop) [DecidablePred pQ]
    (pF : Frac → Prop) [DecidablePred pF] (l : List Frac)
    (h : ∀ x ∈ l, (pQ x.val ↔ pF x)) :
    takeUntil pQ (l.map Frac.val) = (takeUntil pF l).map Frac.val := by
  induction l with
  | nil => rfl
  | cons t ts ih =>
    rw [List.map_cons, takeUntil, takeUntil]
    by_cases hp : pF t
    · rw [if_pos ((h t (by simp)).mpr hp), if_pos hp]
      rfl
    · rw [if_neg (fun c => hp ((h t (by simp)).mp c)), if_neg hp,
        List.map_cons, ih (fun x hx => h x (by simp [hx]))]

/-! Bridge lemmas between the ℚ-level embedding and its Frac mirror. -/

theorem fact_pos (k : ℤ) : 0 < fact k := by
  unfold fact
  by_cases h : k < 2
  · simp [h]
  · rw [if_neg h]
    have key : ∀ (l : List ℕ) (acc : ℤ), 0 < acc → (∀ i ∈ l, 0 < i) →
        0 < l.foldl (fun a i => a * (i : ℤ)) acc := by
      intro l
      induction l with
      | nil => intro acc ha _; simpa using ha
      | cons i is ih =>
        intro acc ha hmem
        exact ih _ (mul_pos ha (by exact_mod_cast hmem i (by simp)))
          (fun x hx => hmem x (by simp [hx]))
    apply key _ 1 one_pos
    intro i hi
    rcases List.mem_range'.mp hi with ⟨v, _, rfl⟩
    omega

theorem val_addF (f g : Frac) (hf : f.den ≠ 0) (hg : g.den ≠ 0) :
    (addF f g).val = f.val + g.val := by
  unfold addF Frac.val
  have hf' : (f.den : ℚ) ≠ 0 := Int.cast_ne_zero.mpr hf
  have hg' : (g.den : ℚ) ≠ 0 := Int.cast_ne_zero.mpr hg
  push_cast
  field_simp

theorem den_sumF_ne (l : List Frac) (h : ∀ f ∈ l, f.den ≠ 0) :
    (sumF l).den ≠ 0 := by
  induction l with
  | nil => simp [sumF]
  | cons t ts ih =>
    show (addF t (sumF ts)).den ≠ 0
    exact mul_ne_zero (h t (by simp)) (ih (fun f hf => h f (by simp [hf])))

theorem val_sumF (l : List Frac) (h : ∀ f ∈ l, f.den ≠ 0) :
    (sumF l).val = (l.map Frac.val).sum := by
  induction l with
  | nil => simp [sumF, Frac.val]
  | cons t ts ih =>
    show (addF t (sumF ts)).val = _
    rw [val_addF t (sumF ts) (h t (by simp))
        (den_sumF_ne ts (fun f hf => h f (by simp [hf]))),
      ih (fun f hf => h f (by simp [hf])), List.map_cons, List.sum_cons]

theorem den_termF_pos (m : ℤ) (hm : 1 ≤ m) (zp : Frac) (hd : 0 < zp.den)
    (j : ℕ) : 0 < (termF m zp j).den := by
  unfold termF
  have h1 : (0 : ℤ) < fact j := fact_pos _
  have h2 : (0 : ℤ) < zp.den ^ (m + (j : ℤ)).toNat := pow_pos hd _
  have h3 : (0 : ℤ) < m + (j : ℤ) := by omega
  exact mul_pos h1 (mul_pos h2 h3)

theorem val_termF (m : ℤ) (hm : 1 ≤ m) (zp : Frac) (hd : 0 < zp.den)
    (j : ℕ) : (termF m zp j).val = termQ (m : ℚ) zp.val j := by
  have hnn : (0 : ℤ) ≤ m + (j : ℤ) := by omega
  have hposz : (0 : ℤ) < m + (j : ℤ) := by omega
  unfold termF termQ qpow Frac.val
  have hmj : (m : ℚ) + (j : ℚ) = (((m + (j : ℤ)) : ℤ) : ℚ) := by push_cast; ring
  rw [hmj, Rat.den_intCast, Rat.num_intCast, if_pos rfl]
  rw [show ((zp.num : ℚ) / (zp.den : ℚ)) ^ (m + (j : ℤ)) =
      ((zp.num : ℚ) / (zp.den : ℚ)) ^ (m + (j : ℤ)).toNat by
    rw [← zpow_natCast, Int.toNat_of_nonneg hnn]]
  rw [div_pow]
  have e1 : ((fact (j : ℤ) : ℤ) : ℚ) ≠ 0 := Int.cast_ne_zero.mpr (fact_pos _).ne'
  have e2 : ((zp.den : ℚ)) ≠ 0 := Int.cast_ne_zero.mpr hd.ne'
  have e3 : (((m + (j : ℤ)) : ℤ) : ℚ) ≠ 0 := Int.cast_ne_zero.mpr hposz.ne'
  push_cast at e3 ⊢
  field_simp

theorem lowF_iff (t : Frac) (ht : 0 < t.den) : lowF t ↔ |t.val| < epsQ := by
  unfold lowF Frac.val epsQ
  rw [abs_div, abs_of_pos (show (0 : ℚ) < (t.den : ℚ) by exact_mod_cast ht),
    div_lt_div_iff (by exact_mod_cast ht) (by positivity), ← Int.cast_abs]
  exact_mod_cast Iff.rfl

theorem keptQ_eq (m : ℤ) (hm : 1 ≤ m) (zp : Frac) (hd : 0 < zp.den) :
    keptQ (m : ℚ) zp.val = (keptF m zp).map Frac.val := by
  unfold keptQ keptF
  have hmap : (List.range 100).map (termQ (m : ℚ) zp.val) =
      ((List.range 100).map (termF m zp)).map Frac.val := by
    rw [List.map_map]
    exact List.map_congr_left (fun j _ => (val_termF m hm zp hd j).symm)
  rw [hmap]
  exact takeUntil_map_val _ _ _ (fun x hx => by
    rcases List.mem_map.mp hx with ⟨j, _, rfl⟩
    exact (lowF_iff _ (den_termF_pos m hm zp hd j)).symm)

theorem mem_keptF_den (m : ℤ) (hm : 1 ≤ m) (zp : Frac) (hd : 0 < zp.den)
    (f : Frac) (hf : f ∈ keptF m zp) : f.den ≠ 0 := by
  rcases List.mem_map.mp (takeUntil_mem _ _ _ hf) with ⟨j, _, rfl⟩
  exact (den_termF_pos m hm zp hd j).ne.symm

theorem gamma_eq_val (m : ℤ) (hm : 1 ≤ m) (zp : Frac) (hd : 0 < zp.den) :
    gamma (m : ℚ) zp.val = (gammaF m zp).val ∧
      (keptQ (m : ℚ) zp.val).length = (keptF m zp).length := by
  have hk := keptQ_eq m hm zp hd
  constructor
  · show (keptQ (m : ℚ) zp.val).sum = _
    rw [hk, gammaF, val_sumF _ (mem_keptF_den m hm zp hd)]
  · rw [hk, List.length_map]

theorem val_lt_val (f g : Frac) (hf : 0 < f.den) (hg : 0 < g.den)
    (h : f.num * g.den < g.num * f.den) : f.val < g.val := by
  unfold Frac.val
  rw [div_lt_div_iff (by exact_mod_cast hf) (by exact_mod_cast hg)]
  exact_mod_cast h

theorem val_le_val (f g : Frac) (hf : 0 < f.den) (hg : 0 < g.den)
    (h : f.num * g.den ≤ g.num * f.den) : f.val ≤ g.val := by
  unfold Frac.val
  rw [div_le_div_iff (by exact_mod_cast hf) (by exact_mod_cast hg)]
  exact_mod_cast h

theorem val_ne_val (f g : Frac) (hf : 0 < f.den) (hg : 0 < g.den)
    (h : f.num * g.den ≠ g.num * f.den) : f.val ≠ g.val := by
  intro c
  apply h
  unfold Frac.val at c
  rw [div_eq_div_iff (Int.cast_ne_zero.mpr hf.ne') (Int.cast_ne_zero.mpr hg.ne')] at c
  exact_mod_cast c

theorem one_lt_val (f : Frac) (hf : 0 < f.den) (h : f.den < f.num) :
    1 < f.val := by
  unfold Frac.val
  rw [lt_div_iff (by exact_mod_cast hf), one_mul]
  exact_mod_cast h

/-! Small evaluation facts about the shared factorial and the dispatch. -/

theorem fact_zero : fact 0 = 1 := by decide

theorem den_half (k : ℤ) : ((k : ℚ) / 2).den = 1 ∨ ((k : ℚ) / 2).den = 2 := by
  have h := Rat.den_dvd k 2
  rw [Rat.divInt_eq_div] at h
  push_cast at h
  have h3 : ((k : ℚ) / 2).den ∣ 2 := by exact_mod_cast h
  exact (Nat.dvd_prime Nat.prime_two).mp h3

theorem GH_int (m : ℤ) : Gamma_Half (m : ℚ) = some ((fact (m - 1) : ℤ) : ℚ) := by
  unfold Gamma_Half
  rw [Rat.den_intCast, if_pos rfl, Rat.num_intCast]

theorem GH_one : Gamma_Half 1 = some 1 := by
  have h := GH_int 1
  rw [show ((1 : ℤ) : ℚ) = (1 : ℚ) by norm_num] at h
  rw [h, show (1 : ℤ) - 1 = 0 by norm_num, fact_zero]
  norm_num

theorem GH_some (k : ℤ) : ∃ G, Gamma_Half ((k : ℚ) / 2) = some G := by
  rcases den_half k with h | h
  · exact ⟨_, by unfold Gamma_Half; rw [if_pos h]⟩
  · exact ⟨_, by unfold Gamma_Half; rw [if_neg (by simp [h]), if_pos h]⟩

theorem cdf_two (x : ℚ) : cdf x 2 = some (1 - gamma 1 (x / 2)) := by
  unfold cdf
  rw [show (((2 : ℤ) : ℚ)) / 2 = 1 by norm_num, GH_one]
  simp

theorem cdf_even (m : ℤ) (x : ℚ) :
    cdf x (2 * m) = some (1 - gamma (m : ℚ) (x / 2) / ((fact (m - 1) : ℤ) : ℚ)) := by
  unfold cdf
  rw [show (((2 * m : ℤ) : ℚ)) / 2 = (m : ℚ) by push_cast; ring, GH_int m]
  simp

theorem gamma_one_thirty : 1 < gamma 1 30 := by
  have hb := (gamma_eq_val 1 le_rfl ⟨30, 1⟩ (by norm_num)).1
  rw [show ((1 : ℤ) : ℚ) = 1 by norm_num,
    show (Frac.val ⟨30, 1⟩) = 30 by norm_num [Frac.val]] at hb
  rw [hb]
  exact one_lt_val _ (by decide) (by decide)

/-- C1: for every x ≥ 0 and integer k ≥ 1 the CDF combinator returns exactly
1 - gamma(k/2, x/2) / Gamma_Half(k/2), with gamma the incomplete-gamma
evaluator and Gamma_Half the hybrid selector, in the rational variant
(ch16_ex3.py, where the combinator arithmetic is exact and Gamma_Half is
always defined on arguments k/2) and in the floating-point variant
(chi_sq.py, read in ideal real arithmetic). -/
theorem cdf_combinator_formula :
    (∀ (x : ℚ) (k : ℤ), 0 ≤ x → 1 ≤ k →
      Gamma_Half ((k : ℚ) / 2) ≠ none ∧
      cdf x k = some (1 - gamma ((k : ℚ) / 2) (x / 2) /
        (Gamma_Half ((k : ℚ) / 2)).getD 1)) ∧
    (∀ (x : ℝ) (k : ℤ),
      cdfR x k = 1 - gammaR ((k : ℝ) / 2) (x / 2) / Gamma_HalfR ((k : ℝ) / 2)) := by
  constructor
  · intro x k _ _
    obtain ⟨G, hG⟩ := GH_some k
    refine ⟨by simp [hG], ?_⟩
    unfold cdf
    rw [hG]
    simp
  · intro x k
    rfl

/-- C1 witness: the combinator formula evaluated at x = 0, k = 2. -/
theorem cdf_combinator_formula_witness :
    Gamma_Half (((2 : ℤ) : ℚ) / 2) ≠ none ∧
    cdf 0 2 = some (1 - gamma (((2 : ℤ) : ℚ) / 2) (0 / 2) /
      (Gamma_Half (((2 : ℤ) : ℚ) / 2)).getD 1) :=
  cdf_combinator_formula.1 0 2 le_rfl (by norm_num)

/-- C2 counterexample: the claim asserts every returned cdf value lies in
[0, 1] and any value outside is raised as a RangeViolation.  At the valid
input x = 60, k = 2 the rational-variant cdf returns a strictly negative
value: the truncated alternating series overshoots the complete gamma, and
the source has no range check of any kind — the value is returned silently. -/
theorem cdf_range_cex : (cdf 60 2).getD 1 < 0 := by
  rw [cdf_two 60, show (60 : ℚ) / 2 = 30 by norm_num]
  simp only [Option.getD_some]
  linarith [gamma_one_thirty]

/-- C2 amended: the rational-variant cdf has no RangeViolation mechanism and
clamps nothing.  On the exact-arithmetic path — even degrees of freedom,
where s = k/2 is an integer and no operation can fail — it always returns a
value, and that value can lie outside [0, 1]: at x = 60, k = 2 it returns a
negative probability silently.  (For odd k the floating-point fallback of
Fraction.__pow__ can instead raise OverflowError at large x; that path lies
outside this exact embedding and is in any case not a RangeViolation.) -/
theorem cdf_total_and_unclamped :
    (∀ (x : ℚ) (m : ℤ), 1 ≤ m → (cdf x (2 * m)).isSome = true) ∧
    (cdf 60 2).getD 1 < 0 := by
  constructor
  · intro x m _
    rw [cdf_even m x]
    rfl
  · rw [cdf_two 60, show (60 : ℚ) / 2 = 30 by norm_num]
    simp only [Option.getD_some]
    linarith [gamma_one_thirty]

/-- C2 witness: cdf returns a value at x = 5, k = 2 * 2 = 4. -/
theorem cdf_total_and_unclamped_witness : (cdf 5 (2 * 2)).isSome = true :=
  cdf_total_and_unclamped.1 5 2 (by norm_num)

/-- C7 counterexample: the claim asserts fact fails with a DomainError on
every negative integer; in both sources the guard is only k < 2, so
fact(-1) returns the value 1 instead of failing. -/
theorem fact_negative_cex : fact (-1) = 1 := by decide

/-- C7 amended: for every negative integer n, fact n returns 1 (the k < 2
base case); no error of any kind is raised, in either variant (the two
sources share this definition verbatim). -/
theorem fact_negative_returns_one : ∀ n : ℤ, n < 0 → fact n = 1 := by
  intro n hn
  unfold fact
  rw [if_pos (by omega)]

/-- C7 witness: the amended claim evaluated at n = -7. -/
theorem fact_negative_returns_one_witness : fact (-7) = 1 :=
  fact_negative_returns_one (-7) (by norm_num)

/-- C9 amended: in the rational variant Gamma_Half(n) equals fact(n-1)
exactly for every integer n ≥ 1; in the floating-point variant an integer
argument never passes the half-integer test, so Gamma_Half(n) is the Nemes
approximation Gamma2(n), which (see the counterexample) misses fact(n-1) by
more than 1e-6 relative at n = 1. -/
theorem Gamma_Half_integer_exact :
    (∀ n : ℤ, 1 ≤ n → Gamma_Half (n : ℚ) = some ((fact (n - 1) : ℤ) : ℚ)) ∧
    (∀ n : ℤ, 1 ≤ n → Gamma_HalfR (n : ℝ) = Gamma2R (n : ℝ)) := by
  constructor
  · intro n _
    exact GH_int n
  · intro n hn
    have ht : rtrunc (n : ℝ) = n := by
      unfold rtrunc
      rw [if_pos (by exact_mod_cast (by omega : (0 : ℤ) ≤ n))]
      exact Int.floor_intCast n
    unfold Gamma_HalfR
    rw [ht, if_neg (by
      unfold epsR'
      rw [show (n : ℝ) - (n : ℝ) - 1 / 2 = -(1 / 2) by ring, abs_neg,
        abs_of_nonneg (by norm_num : (0 : ℝ) ≤ 1 / 2)]
      norm_num)]

/-- C9 witness: the rational variant evaluated at n = 5. -/
theorem Gamma_Half_integer_exact_witness :
    Gamma_Half (((5 : ℤ)) : ℚ) = some ((fact ((5 : ℤ) - 1) : ℤ) : ℚ) :=
  Gamma_Half_integer_exact.1 5 (by norm_num)

/-! Pointwise transfer helpers between the Frac mirror and ℚ statements. -/

theorem termQ_eq_val (m : ℤ) (hm : 1 ≤ m) (zp : Frac) (hd : 0 < zp.den)
    (s z : ℚ) (hs : s = (m : ℚ)) (hz : z = zp.val) (j : ℕ) :
    termQ s z j = (termF m zp j).val := by
  rw [hs, hz, val_termF m hm zp hd j]

theorem eps_le_termQ (m : ℤ) (hm : 1 ≤ m) (zp : Frac) (hd : 0 < zp.den)
    (s z : ℚ) (hs : s = (m : ℚ)) (hz : z = zp.val) (j : ℕ)
    (h : ¬ lowF (termF m zp j)) : epsQ ≤ |termQ s z j| := by
  rw [termQ_eq_val m hm zp hd s z hs hz j]
  exact not_lt.mp (fun c => h ((lowF_iff _ (den_termF_pos m hm zp hd j)).mpr c))

theorem termQ_lt_eps (m : ℤ) (hm : 1 ≤ m) (zp : Frac) (hd : 0 < zp.den)
    (s z : ℚ) (hs : s = (m : ℚ)) (hz : z = zp.val) (j : ℕ)
    (h : lowF (termF m zp j)) : |termQ s z j| < epsQ := by
  rw [termQ_eq_val m hm zp hd s z hs hz j]
  exact (lowF_iff _ (den_termF_pos m hm zp hd j)).mp h

theorem gamma_eq_val' (m : ℤ) (hm : 1 ≤ m) (zp : Frac) (hd : 0 < zp.den)
    (s z : ℚ) (hs : s = (m : ℚ)) (hz : z = zp.val) :
    gamma s z = (gammaF m zp).val ∧ (keptQ s z).length = (keptF m zp).length := by
  rw [hs, hz]
  exact gamma_eq_val m hm zp hd

theorem sum_termQ_eq_val (m : ℤ) (hm : 1 ≤ m) (zp : Frac) (hd : 0 < zp.den)
    (s z : ℚ) (hs : s = (m : ℚ)) (hz : z = zp.val) (n : ℕ) :
    ∑ j ∈ Finset.range n, termQ s z j =
      (sumF ((List.range n).map (termF m zp))).val := by
  rw [← sum_map_range_q, val_sumF _ (fun f hf => by
      rcases List.mem_map.mp hf with ⟨j, _, rfl⟩
      exact (den_termF_pos m hm zp hd j).ne'), List.map_map]
  exact congrArg List.sum
    (List.map_congr_left (fun j _ => termQ_eq_val m hm zp hd s z hs hz j))

/-- C6 amended: the rational variant enforces a hard 100-term ceiling; its
warning fires exactly when no generated term drops below the threshold, and
in that case the unconverged 100-term partial sum is still returned, with the
warning observable.  (The floating-point variant, gammaR above, caps at 1000
terms but has no warning mechanism at all: its take_until simply exhausts the
generator.) -/
theorem gamma_ceiling_warning :
    ∀ s z : ℚ, s.den = 1 →
      (keptQ s z).length ≤ 100 ∧
      ((gammaW s z).2 = true ↔ ∀ j, j < 100 → epsQ ≤ |termQ s z j|) ∧
      ((∀ j, j < 100 → epsQ ≤ |termQ s z j|) →
        (gammaW s z).1 = ∑ j ∈ Finset.range 100, termQ s z j) := by
  intro s z _
  have hlen : ((List.range 100).map (termQ s z)).length = 100 := by simp
  have hfull : (∀ j, j < 100 → epsQ ≤ |termQ s z j|) →
      keptQ s z = (List.range 100).map (termQ s z) := fun h => by
    unfold keptQ
    exact takeUntil_eq_self _ _ (fun x hx => by
      rcases List.mem_map.mp hx with ⟨j, hj, rfl⟩
      exact not_lt.mpr (h j (List.mem_range.mp hj)))
  refine ⟨?_, ⟨?_, ?_⟩, ?_⟩
  · calc (keptQ s z).length ≤ ((List.range 100).map (termQ s z)).length :=
        takeUntil_length_le _ _
      _ = 100 := hlen
  · intro h j hj
    have h' : (keptQ s z).length = 100 := by
      have : ((keptQ s z).length == 100) = true := h
      exact beq_iff_eq.mp this
    have hns := takeUntil_full_no_sat (fun t => |t| < epsQ)
      ((List.range 100).map (termQ s z)) (by
        show (keptQ s z).length = _
        rw [h', hlen])
    exact not_lt.mp (hns (termQ s z j)
      (List.mem_map_of_mem _ (List.mem_range.mpr hj)))
  · intro h
    show ((keptQ s z).length == 100) = true
    rw [beq_iff_eq, hfull h, hlen]
  · intro h
    show (keptQ s z).sum = _
    rw [hfull h, sum_map_range_q]

/-- C6 witness: the ceiling bound of the amended claim at s = 1, z = 35. -/
theorem gamma_ceiling_warning_witness : (keptQ 1 35).length ≤ 100 :=
  (gamma_ceiling_warning 1 35 Rat.den_one).1

/-- C6 counterexample: the claim asserts a ceiling on the order of 1000 terms
with a warning in both variants.  At s = 1, z = 35 the rational evaluator
warns and returns the 100-term partial sum even though the series terms do
drop below the threshold well within an order-1000 ceiling (term 109 already
does), showing its hard ceiling is 100, not on the order of 1000.  (The
floating-point variant in chi_sq.py caps at 1000 but never warns.) -/
theorem gamma_ceiling_cex :
    (gammaW 1 35).2 = true ∧ |termQ 1 35 109| < epsQ ∧
    (gammaW 1 35).1 = ∑ j ∈ Finset.range 100, termQ 1 35 j := by
  have hk := (gamma_eq_val' 1 le_rfl ⟨35, 1⟩ (by norm_num) 1 35 (by norm_num)
    (by norm_num [Frac.val])).2
  have hlen : (keptQ 1 35).length = 100 := by
    rw [hk]
    decide
  have hns := takeUntil_full_no_sat (fun t => |t| < epsQ)
    ((List.range 100).map (termQ 1 35)) (by
      show (keptQ 1 35).length = _
      rw [hlen]
      simp)
  refine ⟨?_, ?_, ?_⟩
  · show ((keptQ 1 35).length == 100) = true
    rw [beq_iff_eq]
    exact hlen
  · exact termQ_lt_eps 1 le_rfl ⟨35, 1⟩ (by norm_num) 1 35 (by norm_num)
      (by norm_num [Frac.val]) 109 (by decide)
  · have hfull : keptQ 1 35 = (List.range 100).map (termQ 1 35) := by
      unfold keptQ
      exact takeUntil_eq_self _ _ hns
    show (keptQ 1 35).sum = _
    rw [hfull, sum_map_range_q]

/-- C5 amended: for integer-valued s (the exact-arithmetic domain of the
rational variant; for half-integer s the source computes the power z**(s+j)
in floating point), each generated term is exactly
(-1)^j / j! * z^(s+j) / (s+j), and whenever some term among the first 100
falls below the threshold, gamma returns precisely the sum of the terms
preceding the first below-threshold term, that term excluded.  (Without
convergence inside the 100-term ceiling the capped sum is returned instead —
see the counterexample and C6.) -/
theorem gamma_truncation :
    ∀ (s z : ℚ), s.den = 1 → 0 < s → 0 ≤ z →
      (∀ j : ℕ, termQ s z j =
        ((-1 : ℚ)) ^ j / ((fact (j : ℤ) : ℤ) : ℚ) *
          (z ^ (s.num + (j : ℤ)) / (s + (j : ℚ)))) ∧
      (∀ m : ℕ, m < 100 → (∀ j, j < m → epsQ ≤ |termQ s z j|) →
        |termQ s z m| < epsQ →
        gamma s z = ∑ j ∈ Finset.range m, termQ s z j) := by
  intro s z hs1 _ _
  have hsn : (s.num : ℚ) = s := (Rat.den_eq_one_iff s).mp hs1
  constructor
  · intro j
    have hmj : s + (j : ℚ) = (((s.num + (j : ℤ)) : ℤ) : ℚ) := by
      conv_lhs => rw [← hsn]
      push_cast
      ring
    have hden : (s + (j : ℚ)).den = 1 := by
      rw [hmj]
      exact Rat.den_intCast _
    have hnum : (s + (j : ℚ)).num = s.num + (j : ℤ) := by
      rw [hmj]
      exact Rat.num_intCast _
    unfold termQ qpow
    rw [if_pos hden, hnum]
  · intro m hm hhigh hlow
    show (keptQ s z).sum = _
    unfold keptQ
    rw [List.range_eq_range',
      takeUntil_stop _ (termQ s z) m 0 100 hm
        (fun i hi => by simpa using not_lt.mpr (hhigh i hi))
        (by simpa using hlow),
      ← List.range_eq_range', sum_map_range_q]

/-- C5 witness: at s = 1, z = 2 the first below-threshold term has index 15
and gamma returns the sum of the 15 preceding terms. -/
theorem gamma_truncation_witness :
    gamma 1 2 = ∑ j ∈ Finset.range 15, termQ 1 2 j := by
  have H : ∀ j, j < 15 → ¬ lowF (termF 1 ⟨2, 1⟩ j) := by decide
  exact (gamma_truncation 1 2 Rat.den_one one_pos (by norm_num)).2 15
    (by norm_num)
    (fun j hj => eps_le_termQ 1 le_rfl ⟨2, 1⟩ (by norm_num) 1 2 (by norm_num)
      (by norm_num [Frac.val]) j (H j hj))
    (termQ_lt_eps 1 le_rfl ⟨2, 1⟩ (by norm_num) 1 2 (by norm_num)
      (by norm_num [Frac.val]) 15 (by decide))

/-- C5 counterexample: the claim quantifies over every s > 0, z ≥ 0, but at
s = 1, z = 40 the first term whose magnitude falls below the threshold has
index 122, past the 100-term generator ceiling, and the value returned by
gamma is not the sum of the terms preceding that first below-threshold
term. -/
theorem gamma_truncation_cex :
    (∀ j, j < 122 → epsQ ≤ |termQ 1 40 j|) ∧ |termQ 1 40 122| < epsQ ∧
    gamma 1 40 ≠ ∑ j ∈ Finset.range 122, termQ 1 40 j := by
  have H : ∀ j, j < 122 → ¬ lowF (termF 1 ⟨40, 1⟩ j) := by decide
  refine ⟨fun j hj => eps_le_termQ 1 le_rfl ⟨40, 1⟩ (by norm_num) 1 40
      (by norm_num) (by norm_num [Frac.val]) j (H j hj),
    termQ_lt_eps 1 le_rfl ⟨40, 1⟩ (by norm_num) 1 40 (by norm_num)
      (by norm_num [Frac.val]) 122 (by decide), ?_⟩
  rw [(gamma_eq_val' 1 le_rfl ⟨40, 1⟩ (by norm_num) 1 40 (by norm_num)
      (by norm_num [Frac.val])).1,
    sum_termQ_eq_val 1 le_rfl ⟨40, 1⟩ (by norm_num) 1 40 (by norm_num)
      (by norm_num [Frac.val]) 122]
  exact val_ne_val _ _ (by decide) (by decide) (by decide)

/-- C4 counterexample: the claim asserts cdf is non-increasing in x for every
fixed k.  At k = 2 and the adjacent statistics x1 = 215049642/50000000 and
x2 = 215049643/50000000 (which straddle the point where the 16th series term
crosses the truncation threshold, so the kept prefix jumps from 15 to 16
terms and picks up a negative term of magnitude about 1e-8), the returned
probabilities satisfy cdf(x1, 2) < cdf(x2, 2) although x1 < x2. -/
theorem cdf_monotone_cex :
    (215049642 / 50000000 : ℚ) < 215049643 / 50000000 ∧
    cdf (215049642 / 50000000) 2 ≠ none ∧
    cdf (215049643 / 50000000) 2 ≠ none ∧
    (cdf (215049642 / 50000000) 2).getD 0 <
      (cdf (215049643 / 50000000) 2).getD 0 := by
  refine ⟨by norm_num, by rw [cdf_two]; simp, by rw [cdf_two]; simp, ?_⟩
  rw [cdf_two, cdf_two]
  simp only [Option.getD_some]
  have h1 := (gamma_eq_val' 1 le_rfl ⟨215049642, 100000000⟩ (by norm_num) 1
    ((215049642 / 50000000 : ℚ) / 2) (by norm_num) (by norm_num [Frac.val])).1
  have h2 := (gamma_eq_val' 1 le_rfl ⟨215049643, 100000000⟩ (by norm_num) 1
    ((215049643 / 50000000 : ℚ) / 2) (by norm_num) (by norm_num [Frac.val])).1
  rw [h1, h2]
  have hlt := val_lt_val (gammaF 1 ⟨215049643, 100000000⟩)
    (gammaF 1 ⟨215049642, 100000000⟩) (by decide) (by decide) (by decide)
  linarith

/-- C4 amended: over the even-degrees-of-freedom inputs of the documented
test table (the k = 10, 6 and 4 pairs — the k = 1 rows of the table route
z**(s+j) through the floating-point fallback and are outside this exact
embedding) the returned probabilities are monotone as the claim states
(cdf(29.59,10) ≤ cdf(3.94,10), cdf(19.18,6) ≤ cdf(12.5916,6),
cdf(12.131,4) ≤ cdf(9.488,4)); in general, however, monotonicity in x fails
at the isolated points where the series truncation index changes, with
violations on the order of the threshold 1e-8 (see the counterexample). -/
theorem cdf_monotone_on_table :
    (cdf (2959 / 100) 10).getD 0 ≤ (cdf (197 / 50) 10).getD 0 ∧
    (cdf (959 / 50) 6).getD 0 ≤ (cdf (31479 / 2500) 6).getD 0 ∧
    (cdf (12131 / 1000) 4).getD 0 ≤ (cdf (9488 / 1000) 4).getD 0 := by
  refine ⟨?_, ?_, ?_⟩
  · rw [show (10 : ℤ) = 2 * 5 by norm_num, cdf_even 5, cdf_even 5]
    simp only [Option.getD_some]
    rw [show (5 : ℤ) - 1 = 4 by norm_num, show (fact 4 : ℤ) = 24 by decide]
    have ha := (gamma_eq_val' 5 (by norm_num) ⟨394, 200⟩ (by norm_num) (((5 : ℤ)) : ℚ)
      ((197 / 50 : ℚ) / 2) rfl (by norm_num [Frac.val])).1
    have hb := (gamma_eq_val' 5 (by norm_num) ⟨2959, 200⟩ (by norm_num) (((5 : ℤ)) : ℚ)
      ((2959 / 100 : ℚ) / 2) rfl (by norm_num [Frac.val])).1
    rw [ha, hb]
    have hle := val_le_val (gammaF 5 ⟨394, 200⟩) (gammaF 5 ⟨2959, 200⟩)
      (by decide) (by decide) (by decide)
    push_cast
    linarith
  · rw [show (6 : ℤ) = 2 * 3 by norm_num, cdf_even 3, cdf_even 3]
    simp only [Option.getD_some]
    rw [show (3 : ℤ) - 1 = 2 by norm_num, show (fact 2 : ℤ) = 2 by decide]
    have ha := (gamma_eq_val' 3 (by norm_num) ⟨125916, 20000⟩ (by norm_num) (((3 : ℤ)) : ℚ)
      ((31479 / 2500 : ℚ) / 2) rfl (by norm_num [Frac.val])).1
    have hb := (gamma_eq_val' 3 (by norm_num) ⟨1918, 200⟩ (by norm_num) (((3 : ℤ)) : ℚ)
      ((959 / 50 : ℚ) / 2) rfl (by norm_num [Frac.val])).1
    rw [ha, hb]
    have hle := val_le_val (gammaF 3 ⟨125916, 20000⟩) (gammaF 3 ⟨1918, 200⟩)
      (by decide) (by decide) (by decide)
    push_cast
    linarith
  · rw [show (4 : ℤ) = 2 * 2 by norm_num, cdf_even 2, cdf_even 2]
    simp only [Option.getD_some]
    rw [show (2 : ℤ) - 1 = 1 by norm_num, show (fact 1 : ℤ) = 1 by decide]
    have ha := (gamma_eq_val' 2 (by norm_num) ⟨9488, 2000⟩ (by norm_num) (((2 : ℤ)) : ℚ)
      ((9488 / 1000 : ℚ) / 2) rfl (by norm_num [Frac.val])).1
    have hb := (gamma_eq_val' 2 (by norm_num) ⟨12131, 2000⟩ (by norm_num) (((2 : ℤ)) : ℚ)
      ((12131 / 1000 : ℚ) / 2) rfl (by norm_num [Frac.val])).1
    rw [ha, hb]
    have hle := val_le_val (gammaF 2 ⟨9488, 2000⟩) (gammaF 2 ⟨12131, 2000⟩)
      (by decide) (by decide) (by decide)
    push_cast
    linarith

/-- C8 counterexample: the claim asserts every argument within 1e-6 of a
half-integer gets the exact closed form in both numeric representations.  The
rational variant has no tolerance test at all: at k = 3000001/2000000, which
is within 5e-7 of 3/2, it raises ValueError (modelled as none) because the
reduced denominator is neither 1 nor 2. -/
theorem Gamma_Half_tolerance_cex : Gamma_Half (3000001 / 2000000) = none := by
  have hq : (3000001 / 2000000 : ℚ) =
      (⟨3000001, 2000000, by norm_num, by norm_num⟩ : ℚ) := by
    rw [Rat.mk'_eq_divInt, Rat.divInt_eq_div]
    norm_num
  have hden : (3000001 / 2000000 : ℚ).den = 2000000 := by rw [hq]
  unfold Gamma_Half
  rw [if_neg (by rw [hden]; norm_num), if_neg (by rw [hden]; norm_num)]

/-- C8 amended: the floating-point variant follows the claim, detecting
half-integers within the 1e-6 tolerance and then using the closed form
(2n)!/(4^n n!)*sqrt(pi) (shown here at k = 3000001/2000000, n = 1); the
rational variant instead dispatches structurally on the exact reduced
representation: denominator 1 yields fact(k-1) (not the Nemes approximator),
denominator 2 yields the closed form with the rational sqrt(pi), and any
other denominator — even within 1e-6 of a half-integer — raises ValueError. -/
theorem Gamma_Half_dispatch :
    (∀ k : ℚ, k.den = 1 → Gamma_Half k = some ((fact (k.num - 1) : ℤ) : ℚ)) ∧
    (∀ k : ℚ, k.den = 2 → Gamma_Half k =
      some (((fact (2 * (k - 1 / 2).num) : ℤ) : ℚ) /
        ((4 : ℚ) ^ ((k - 1 / 2).num) * ((fact ((k - 1 / 2).num) : ℤ) : ℚ)) *
        sqrt_pi)) ∧
    (∀ k : ℚ, 2 < k.den → Gamma_Half k = none) ∧
    (Gamma_HalfR ((3000001 : ℝ) / 2000000) =
      ((fact 2 : ℤ) : ℝ) / ((4 : ℝ) ^ (1 : ℤ) * ((fact 1 : ℤ) : ℝ)) *
        Real.sqrt Real.pi) := by
  refine ⟨?_, ?_, ?_, ?_⟩
  · intro k h
    unfold Gamma_Half
    rw [if_pos h]
  · intro k h
    unfold Gamma_Half
    rw [if_neg (by omega), if_pos h]
  · intro k h
    unfold Gamma_Half
    rw [if_neg (by omega), if_neg (by omega)]
  · have hr1 : rtrunc ((3000001 : ℝ) / 2000000) = 1 := by
      unfold rtrunc
      rw [if_pos (by norm_num), Int.floor_eq_iff]
      norm_num
    have hr2 : rtrunc ((3000001 : ℝ) / 2000000 - 1 / 2) = 1 := by
      unfold rtrunc
      rw [if_pos (by norm_num), Int.floor_eq_iff]
      norm_num
    unfold Gamma_HalfR
    rw [hr1, hr2, if_pos (by
      rw [show (3000001 : ℝ) / 2000000 - ((1 : ℤ) : ℝ) - 1 / 2 = 1 / 2000000 by
          push_cast; ring,
        abs_of_nonneg (by norm_num : (0 : ℝ) ≤ 1 / 2000000)]
      unfold epsR'
      norm_num)]
    rw [show 2 * (1 : ℤ) = 2 by norm_num]

/-- C8 witness: the rational integer branch of the amended claim at k = 4. -/
theorem Gamma_Half_dispatch_witness :
    Gamma_Half (((4 : ℤ)) : ℚ) = some ((fact ((((4 : ℤ)) : ℚ).num - 1) : ℤ) : ℚ) :=
  Gamma_Half_dispatch.1 ((4 : ℤ) : ℚ) (Rat.den_intCast 4)

/-- C9 counterexample: the claim asserts Gamma_Half(n) matches fact(n-1) to
1e-6 relative tolerance in both variants.  In the floating-point variant the
integer argument n = 1 never passes the half-integer test, so the value is
the Nemes approximation Gamma2(1) = sqrt(2 pi) * (129/119) / e, about
0.99963, which misses fact(0) = 1 by roughly 3.7e-4 — far beyond 1e-6
(relative and absolute coincide here since fact(0) = 1). -/
theorem Gamma_Half_nemes_cex :
    1 / 1000000 < |Gamma_HalfR 1 - ((fact 0 : ℤ) : ℝ)| := by
  have ht : rtrunc (1 : ℝ) = 1 := by
    unfold rtrunc
    rw [if_pos (by norm_num)]
    exact Int.floor_one
  have hG : Gamma_HalfR 1 = Gamma2R 1 := by
    unfold Gamma_HalfR
    rw [ht, if_neg (by
      rw [show (1 : ℝ) - ((1 : ℤ) : ℝ) - 1 / 2 = -(1 / 2) by push_cast; ring,
        abs_neg, abs_of_nonneg (by norm_num : (0 : ℝ) ≤ 1 / 2)]
      unfold epsR'
      norm_num)]
  have hval : Gamma2R 1 = Real.sqrt (2 * Real.pi) * ((129 / 119) / Real.exp 1) := by
    unfold Gamma2R
    rw [Real.rpow_one]
    norm_num
  have hsq : Real.sqrt (2 * Real.pi) < 2.50664 := by
    rw [Real.sqrt_lt' (by norm_num)]
    nlinarith [Real.pi_lt_d6]
  have hbound : Real.sqrt (2 * Real.pi) * ((129 / 119) / Real.exp 1) <
      1 - 1 / 1000000 := by
    have he := Real.exp_one_gt_d9
    have hepos : (0 : ℝ) < Real.exp 1 := Real.exp_pos 1
    rw [← mul_div_assoc, div_lt_iff hepos]
    nlinarith [mul_lt_mul_of_pos_right hsq
      (show (0 : ℝ) < 129 / 119 by norm_num)]
  have habs : 1 - (Real.sqrt (2 * Real.pi) * ((129 / 119) / Real.exp 1)) ≤
      |Real.sqrt (2 * Real.pi) * ((129 / 119) / Real.exp 1) - 1| := by
    rw [abs_sub_comm]
    exact le_abs_self _
  rw [hG, hval, show ((fact 0 : ℤ) : ℝ) = 1 by rw [fact_zero]; norm_num]
  linarith

/-- C10 amended: for integer-valued s (even degrees of freedom) every series
term of the rational-variant gamma is the exact rational value of the
mathematical term — the rational path performs exact arithmetic and its
results coincide with the ideal real evaluation.  For half-integer s the
exact term value is irrational (see the counterexample), so it cannot be
produced by rational arithmetic at all: the source computes z**(s+j) through
the floating-point fallback of Fraction.__pow__ and converts the float back,
silently mixing the two representations. -/
theorem rational_terms_exact :
    ∀ (s z : ℚ), s.den = 1 → 0 < s → 0 ≤ z →
      ∀ j : ℕ, ((termQ s z j : ℚ) : ℝ) = termR (s : ℝ) (z : ℝ) j := by
  intro s z hs1 _ _ j
  have hsn : (s.num : ℚ) = s := (Rat.den_eq_one_iff s).mp hs1
  have hmj : s + (j : ℚ) = (((s.num + (j : ℤ)) : ℤ) : ℚ) := by
    conv_lhs => rw [← hsn]
    push_cast
    ring
  have hden : (s + (j : ℚ)).den = 1 := by
    rw [hmj]
    exact Rat.den_intCast _
  have hnum : (s + (j : ℚ)).num = s.num + (j : ℤ) := by
    rw [hmj]
    exact Rat.num_intCast _
  have hsR : ((s.num : ℤ) : ℝ) = (s : ℝ) := by exact_mod_cast hsn
  have hmjR : (s : ℝ) + (j : ℝ) = (((s.num + (j : ℤ)) : ℤ) : ℝ) := by
    rw [← hsR]
    push_cast
    ring
  unfold termQ termR qpow
  rw [if_pos hden, hnum, hmjR, Real.rpow_intCast]
  push_cast
  rw [hsR]

/-- C10 witness: exactness of the rational path at s = 1, z = 2, j = 0. -/
theorem rational_terms_exact_witness :
    ((termQ 1 2 0 : ℚ) : ℝ) = termR ((1 : ℚ) : ℝ) ((2 : ℚ) : ℝ) 0 :=
  rational_terms_exact 1 2 Rat.den_one one_pos (by norm_num) 0

/-- C10 counterexample: the claim asserts the rational-variant incomplete
gamma performs every arithmetic operation in exact rational arithmetic with
no floating-point influence.  At s = 1/2 (degrees of freedom k = 1), z = 2,
the very first series term equals 2 * sqrt(2), an irrational number: no
rational-arithmetic computation can produce it, and the Fraction returned by
the source is the value of a floating-point power converted back to a
rational. -/
theorem rational_mixing_cex : Irrational (termR (1 / 2) 2 0) := by
  have h : termR (1 / 2) 2 0 = ((2 : ℚ) : ℝ) * Real.sqrt 2 := by
    unfold termR
    rw [show fact ((0 : ℕ) : ℤ) = 1 by decide]
    rw [show ((1 : ℝ) / 2 + ((0 : ℕ) : ℝ)) = 1 / 2 by norm_num]
    rw [← Real.sqrt_eq_rpow]
    push_cast
    ring
  rw [h]
  exact irrational_sqrt_two.rat_mul (by norm_num)

end ChiSq
